import Mathlib

/-!
Verification of the Hog game simulator (`hog.py`).

The Python source is embedded shallowly:

* A dice source is a stream `d : ℕ → ℕ` together with a call counter; every
  invocation of the Python zero-argument dice function reads `d k` and
  advances the counter to `k + 1`, so counting invocations is observable.
* Python integers become `ℤ` (scores, roll counts chosen by strategies) or
  `ℕ` (counters, number of rolls actually performed).  Python's floor
  division `//` becomes `Int.fdiv` and `%` becomes `Int.emod` (`%`), which
  agree with Python for the positive divisors used here.
* Python `assert` failures and runtime errors (division by zero) are
  modelled with `Option`: `none` is a raised exception.
* Python float averages are modelled exactly as `ℚ`.
-/

/-- `GOAL_SCORE = 100` from the source. -/
def GOAL_SCORE : ℤ := 100

/-- `BASELINE_NUM_ROLLS = 5` from the source. -/
def BASELINE_NUM_ROLLS : ℤ := 5

/-- `BACON_MARGIN = 8` from the source. -/
def BACON_MARGIN : ℤ := 8

/-- The `while num_rolls > 0` loop of `roll_dice`.  Arguments: remaining
rolls, dice counter, `total`, `pig_out`; returns the turn value (`1` on a
pig out, otherwise the sum) and the final dice counter. -/
def rollDiceGo (d : ℕ → ℕ) : ℕ → ℕ → ℕ → Bool → ℕ × ℕ
  | 0, k, total, pig => (if pig then 1 else total, k)
  | n + 1, k, total, pig =>
      let outcome := d k
      rollDiceGo d n (k + 1) (total + outcome) (pig || (outcome == 1))

/-- `roll_dice(num_rolls, dice)` with the dice counter made explicit;
returns the turn value and the new counter. -/
def roll_dice (numRolls : ℕ) (d : ℕ → ℕ) (k : ℕ) : ℕ × ℕ :=
  rollDiceGo d numRolls k 0 false

/-- `take_turn(num_rolls, opponent_score, dice)`.  The three `assert`
statements become `none`; `num_rolls` is an arbitrary integer as in the
source, and a successful call returns the turn value together with the new
dice counter. -/
def take_turn (numRolls : ℤ) (oppScore : ℤ) (d : ℕ → ℕ) (k : ℕ) : Option (ℤ × ℕ) :=
  if numRolls < 0 then none
  else if 10 < numRolls then none
  else if 100 ≤ oppScore then none
  else if numRolls = 0 then
    some (1 + max (Int.fdiv oppScore 10) (oppScore % 10), k)
  else
    let r := roll_dice numRolls.toNat d k
    some ((r.1 : ℤ), r.2)

/-- `select_dice(score, opponent_score)`: `true` means four-sided
("Hog wild"), `false` means six-sided. -/
def select_dice (score oppScore : ℤ) : Bool :=
  (score + oppScore) % 7 == 0

/-- `other(who)`. -/
def other (who : ℕ) : ℕ := 1 - who

/-- A strategy: `(own score, opponent score) ↦ number of dice`. -/
def Strategy : Type := ℤ → ℤ → ℤ

/-- The loop state of `play`: the score of the player about to move
(`score`), the opponent's score, the two strategy variables (which the
source swaps each turn), `who`, and the call counters of the four- and
six-sided dice streams. -/
structure GState where
  score : ℤ
  opp : ℤ
  s0 : Strategy
  s1 : Strategy
  who : ℕ
  k4 : ℕ
  k6 : ℕ

/-- Lines 97–99 of the source: the Swine swap, applied to the active
player's post-scoring score and the opponent's score. -/
def applySwap (score opp : ℤ) : ℤ × ℤ :=
  if opp - score = score ∨ score - opp = opp then (opp, score) else (score, opp)

/-- One iteration of the `play` loop body (lines 93–105), for dice streams
`d4`, `d6`; `none` when `take_turn` raises. -/
def playTurn (d4 d6 : ℕ → ℕ) (g : GState) : Option GState :=
  let numDice := g.s0 g.score g.opp
  let four := select_dice g.score g.opp
  let d := if four then d4 else d6
  let k := if four then g.k4 else g.k6
  match take_turn numDice g.opp d k with
  | none => none
  | some (v, k') =>
      let p := applySwap (g.score + v) g.opp
      some { score := p.2, opp := p.1, s0 := g.s1, s1 := g.s0,
             who := other g.who,
             k4 := if four then k' else g.k4,
             k6 := if four then g.k6 else k' }

/-- Lines 108–111 of the source: reverse the turn-indexed pair when the
loop stopped on player 1's turn, producing the player-indexed result. -/
def playResult (g : GState) : ℤ × ℤ :=
  if g.who = 1 then (g.opp, g.score) else (g.score, g.opp)

/-- The `while score < goal and opponent_score < goal` loop of `play`,
with explicit fuel; `none` when fuel runs out mid-loop or a turn raises. -/
def playGo (d4 d6 : ℕ → ℕ) (goal : ℤ) : ℕ → GState → Option (ℤ × ℤ)
  | 0, g =>
      if g.score < goal ∧ g.opp < goal then none else some (playResult g)
  | fuel + 1, g =>
      if g.score < goal ∧ g.opp < goal then
        match playTurn d4 d6 g with
        | none => none
        | some g' => playGo d4 d6 goal fuel g'
      else some (playResult g)

/-- `play(strategy0, strategy1, goal)` on dice streams starting at
counter `0`. -/
def play (s0 s1 : Strategy) (d4 d6 : ℕ → ℕ) (goal : ℤ) (fuel : ℕ) :
    Option (ℤ × ℤ) :=
  playGo d4 d6 goal fuel ⟨0, 0, s0, s1, 0, 0, 0⟩

/-! ### Characterisation of `roll_dice` -/

/-- The `roll_dice` loop: the counter advances once per roll, the value is
`1` when some outcome is `1` and the sum of the outcomes otherwise. -/
theorem rollDiceGo_eq (d : ℕ → ℕ) :
    ∀ (n k total : ℕ) (pig : Bool),
      rollDiceGo d n k total pig =
        ((if pig = true ∨ ∃ i < n, d (k + i) = 1 then 1
          else total + ∑ i in Finset.range n, d (k + i)), k + n) := by
  intro n
  induction n with
  | zero =>
      intro k total pig
      cases pig <;> simp [rollDiceGo]
  | succ n ih =>
      intro k total pig
      have hstep : rollDiceGo d (n + 1) k total pig
          = rollDiceGo d n (k + 1) (total + d k) (pig || (d k == 1)) := rfl
      rw [hstep, ih]
      have hsum : (total + d k) + ∑ i in Finset.range n, d (k + 1 + i) =
          total + ∑ i in Finset.range (n + 1), d (k + i) := by
        have h1 : ∑ i in Finset.range (n + 1), d (k + i) =
            (∑ i in Finset.range n, d (k + (i + 1))) + d (k + 0) :=
          Finset.sum_range_succ' (fun i => d (k + i)) n
        have h2 : ∀ i ∈ Finset.range n, d (k + 1 + i) = d (k + (i + 1)) := by
          intro i _
          have h3 : k + 1 + i = k + (i + 1) := by omega
          rw [h3]
        rw [Finset.sum_congr rfl h2, h1]
        have h4 : k + 0 = k := by omega
        rw [h4]
        ring
      have hcond : ((pig || (d k == 1)) = true ∨ ∃ i < n, d (k + 1 + i) = 1) ↔
          (pig = true ∨ ∃ i < n + 1, d (k + i) = 1) := by
        constructor
        · rintro (hp | ⟨i, hi, hd⟩)
          · rcases (by simpa using hp : pig = true ∨ d k = 1) with h | h
            · exact Or.inl h
            · exact Or.inr ⟨0, by omega, by simpa using h⟩
          · refine Or.inr ⟨i + 1, by omega, ?_⟩
            have h3 : k + 1 + i = k + (i + 1) := by omega
            rwa [h3] at hd
        · rintro (hp | ⟨i, hi, hd⟩)
          · exact Or.inl (by simp [hp])
          · rcases i with _ | j
            · refine Or.inl ?_
              simp only [Bool.or_eq_true, beq_iff_eq]
              exact Or.inr (by simpa using hd)
            · refine Or.inr ⟨j, by omega, ?_⟩
              have h3 : k + 1 + j = k + (j + 1) := by omega
              rwa [h3]
      have h5 : k + 1 + n = k + (n + 1) := by omega
      by_cases h : (pig || (d k == 1)) = true ∨ ∃ i < n, d (k + 1 + i) = 1
      · rw [if_pos h, if_pos (hcond.mp h), h5]
      · rw [if_neg h, if_neg (fun hc => h (hcond.mpr hc)), h5, hsum]

/-- C3: for `num_rolls ≥ 1`, `roll_dice` advances the dice counter by
exactly `num_rolls` (it calls the dice exactly that many times, even after
an early `1`), and returns `1` if any outcome is `1`, else the sum. -/
theorem roll_dice_spec (n : ℕ) (d : ℕ → ℕ) (k : ℕ) (h : 1 ≤ n) :
    roll_dice n d k =
      ((if ∃ i < n, d (k + i) = 1 then 1
        else ∑ i in Finset.range n, d (k + i)), k + n) := by
  have := rollDiceGo_eq d n k 0 false
  simpa [roll_dice] using this

/-- Witness for `roll_dice_spec` at `n = 3`, dice stream `3, 1, 5, 7, …`. -/
theorem roll_dice_spec_witness :
    roll_dice 3 (fun i => if i = 1 then 1 else 3 + 2 * i) 0 = (1, 3) := by
  have h := roll_dice_spec 3 (fun i => if i = 1 then 1 else 3 + 2 * i) 0 (by decide)
  rw [h]
  decide

/-! ### `take_turn`: free bacon and the asserts -/

/-- C4: with `num_rolls = 0` and an opponent score in `[0, 100)`,
`take_turn` returns `1 + max(opponent_score // 10, opponent_score % 10)`
and leaves the dice counter untouched (the dice source is never invoked);
in particular the value is `1` at opponent score `0` and `5` at `24`. -/
theorem take_turn_free_bacon (opp : ℤ) (h0 : 0 ≤ opp) (h1 : opp < 100)
    (d : ℕ → ℕ) (k : ℕ) :
    take_turn 0 opp d k = some (1 + max (Int.fdiv opp 10) (opp % 10), k)
      ∧ take_turn 0 0 d k = some (1, k)
      ∧ take_turn 0 24 d k = some (5, k) := by
  refine ⟨?_, ?_, ?_⟩
  · unfold take_turn
    rw [if_neg (by omega), if_neg (by omega), if_neg (by omega), if_pos rfl]
  · unfold take_turn
    norm_num
  · unfold take_turn
    norm_num
    rfl

/-- Witness for `take_turn_free_bacon` at opponent score `24`. -/
theorem take_turn_free_bacon_witness :
    take_turn 0 24 (fun _ => 6) 0 = some (1 + max (Int.fdiv 24 10) ((24 : ℤ) % 10), 0)
      ∧ take_turn 0 0 (fun _ => 6) 0 = some (1, 0)
      ∧ take_turn 0 24 (fun _ => 6) 0 = some (5, 0) :=
  take_turn_free_bacon 24 (by norm_num) (by norm_num) (fun _ => 6) 0

/-- C7 (amended): `take_turn` raises (returns `none`) exactly when
`num_rolls < 0`, `num_rolls > 10`, or `opponent_score ≥ 100`; a negative
`opponent_score` by itself is accepted, and when the precondition holds the
call always produces a value. -/
theorem take_turn_none_iff (n opp : ℤ) (d : ℕ → ℕ) (k : ℕ) :
    take_turn n opp d k = none ↔ (n < 0 ∨ 10 < n ∨ 100 ≤ opp) := by
  unfold take_turn
  by_cases h1 : n < 0
  · simp [h1]
  · rw [if_neg h1]
    by_cases h2 : 10 < n
    · simp [h2]
    · rw [if_neg h2]
      by_cases h3 : 100 ≤ opp
      · simp [h3]
      · rw [if_neg h3]
        by_cases h4 : n = 0
        · simp [h4, h1, h2, h3]
        · rw [if_neg h4]
          simp [h1, h2, h3]

/-- Counterexample to C7 as stated: at the invalid negative opponent score
`-5`, `take_turn` does not fail; it returns the free-bacon value
`1 + max(-5 // 10, -5 % 10) = 1 + max(-1, 5) = 6`. -/
theorem take_turn_accepts_negative_opponent :
    take_turn 0 (-5) (fun _ => 6) 0 = some (6, 0) := by
  unfold take_turn
  norm_num
  rfl

/-! ### Engine helpers: every turn is worth at least one point -/

/-- With a dice source producing only outcomes `≥ 1`, a rolled turn is
worth at least `1` point. -/
theorem roll_dice_ge_one (n : ℕ) (d : ℕ → ℕ) (k : ℕ) (hn : 1 ≤ n)
    (hd : ∀ i, 1 ≤ d i) : 1 ≤ (roll_dice n d k).1 := by
  rw [roll_dice, rollDiceGo_eq d n k 0 false]
  dsimp only
  by_cases hex : (false = true ∨ ∃ i < n, d (k + i) = 1)
  · rw [if_pos hex]
  · rw [if_neg hex]
    have hge : n ≤ ∑ i in Finset.range n, d (k + i) := by
      calc n = ∑ _i in Finset.range n, 1 := by simp
        _ ≤ ∑ i in Finset.range n, d (k + i) :=
            Finset.sum_le_sum (fun i _ => hd _)
    omega

/-- When its precondition holds (roll count in `[0,10]`, opponent score in
`[0,100)`) and the dice produce outcomes `≥ 1`, `take_turn` succeeds and
the turn value is at least `1`. -/
theorem take_turn_pos (nr opp : ℤ) (d : ℕ → ℕ) (k : ℕ)
    (h0 : 0 ≤ nr) (h1 : nr ≤ 10) (h2 : opp < 100) (h3 : 0 ≤ opp)
    (hd : ∀ i, 1 ≤ d i) :
    ∃ v k', take_turn nr opp d k = some (v, k') ∧ 1 ≤ v := by
  unfold take_turn
  rw [if_neg (by omega), if_neg (by omega), if_neg (by omega)]
  by_cases h4 : nr = 0
  · rw [if_pos h4]
    refine ⟨_, _, rfl, ?_⟩
    have hf : 0 ≤ Int.fdiv opp 10 := Int.fdiv_nonneg h3 (by norm_num)
    have hm : Int.fdiv opp 10 ≤ max (Int.fdiv opp 10) (opp % 10) := le_max_left _ _
    omega
  · rw [if_neg h4]
    refine ⟨_, _, rfl, ?_⟩
    have hn : 1 ≤ nr.toNat := by omega
    have hv := roll_dice_ge_one nr.toNat d k hn hd
    exact_mod_cast hv

/-- `applySwap` either keeps the pair or exchanges it. -/
theorem applySwap_cases (s o : ℤ) :
    applySwap s o = (s, o) ∨ applySwap s o = (o, s) := by
  unfold applySwap
  split
  · exact Or.inr rfl
  · exact Or.inl rfl

/-- One loop iteration of `play` always succeeds on a valid state, keeps
both scores nonnegative, increases the score total by at least `1`, and
exchanges the two strategy variables. -/
theorem playTurn_progress (d4 d6 : ℕ → ℕ) (hd4 : ∀ i, 1 ≤ d4 i)
    (hd6 : ∀ i, 1 ≤ d6 i) (g : GState)
    (hs : ∀ a b, 0 ≤ g.s0 a b ∧ g.s0 a b ≤ 10)
    (h0 : 0 ≤ g.score) (h1 : 0 ≤ g.opp) (h2 : g.opp < 100) :
    ∃ g', playTurn d4 d6 g = some g' ∧ 0 ≤ g'.score ∧ 0 ≤ g'.opp ∧
      g.score + g.opp + 1 ≤ g'.score + g'.opp ∧ g'.s0 = g.s1 ∧ g'.s1 = g.s0 := by
  obtain ⟨hs0, hs1⟩ := hs g.score g.opp
  unfold playTurn
  cases hf4 : select_dice g.score g.opp with
  | true =>
      obtain ⟨v, k', htt, hv⟩ :=
        take_turn_pos (g.s0 g.score g.opp) g.opp d4 g.k4 hs0 hs1 h2 h1 hd4
      simp only [hf4, if_true, htt]
      refine ⟨_, rfl, ?_⟩
      rcases applySwap_cases (g.score + v) g.opp with hsw | hsw <;>
        rw [hsw] <;>
        refine ⟨?_, ?_, ?_, rfl, rfl⟩ <;> dsimp only <;> omega
  | false =>
      obtain ⟨v, k', htt, hv⟩ :=
        take_turn_pos (g.s0 g.score g.opp) g.opp d6 g.k6 hs0 hs1 h2 h1 hd6
      simp only [hf4, Bool.false_eq_true, if_false, htt]
      refine ⟨_, rfl, ?_⟩
      rcases applySwap_cases (g.score + v) g.opp with hsw | hsw <;>
        rw [hsw] <;>
        refine ⟨?_, ?_, ?_, rfl, rfl⟩ <;> dsimp only <;> omega

/-- When the loop guard fails, `playGo` stops at once with the normalised
result, whatever the remaining fuel. -/
theorem playGo_stop (d4 d6 : ℕ → ℕ) (goal : ℤ) (fuel : ℕ) (g : GState)
    (hguard : ¬(g.score < goal ∧ g.opp < goal)) :
    playGo d4 d6 goal fuel g = some (playResult g) := by
  cases fuel <;> simp only [playGo, if_neg hguard]

/-- One successful loop iteration consumes one unit of fuel. -/
theorem playGo_step (d4 d6 : ℕ → ℕ) (goal : ℤ) (fuel : ℕ) (g g' : GState)
    (hguard : g.score < goal ∧ g.opp < goal)
    (h : playTurn d4 d6 g = some g') :
    playGo d4 d6 goal (fuel + 1) g = playGo d4 d6 goal fuel g' := by
  simp only [playGo, if_pos hguard, h]

/-- With valid strategies and positive dice, the game loop reaches a
result within the fuel bound `200 ≤ fuel + score + opponent score`, and
the result has a component `≥ 100`. -/
theorem playGo_total (d4 d6 : ℕ → ℕ) (hd4 : ∀ i, 1 ≤ d4 i) (hd6 : ∀ i, 1 ≤ d6 i) :
    ∀ (fuel : ℕ) (g : GState),
      (∀ a b, 0 ≤ g.s0 a b ∧ g.s0 a b ≤ 10) →
      (∀ a b, 0 ≤ g.s1 a b ∧ g.s1 a b ≤ 10) →
      0 ≤ g.score → 0 ≤ g.opp → (200 : ℤ) ≤ (fuel : ℤ) + g.score + g.opp →
      ∃ a b, playGo d4 d6 100 fuel g = some (a, b) ∧ (100 ≤ a ∨ 100 ≤ b) := by
  intro fuel
  induction fuel with
  | zero =>
      intro g hs0 hs1 h0 h1 hsum
      have hguard : ¬(g.score < 100 ∧ g.opp < 100) := by
        push_cast at hsum
        omega
      rw [playGo_stop d4 d6 100 0 g hguard]
      unfold playResult
      by_cases hw : g.who = 1
      · rw [if_pos hw]
        exact ⟨_, _, rfl, by omega⟩
      · rw [if_neg hw]
        exact ⟨_, _, rfl, by omega⟩
  | succ fuel ih =>
      intro g hs0 hs1 h0 h1 hsum
      by_cases hguard : g.score < 100 ∧ g.opp < 100
      · obtain ⟨g', hg', hp0, hp1, hprog, hsw0, hsw1⟩ :=
          playTurn_progress d4 d6 hd4 hd6 g hs0 h0 h1 hguard.2
        rw [playGo_step d4 d6 100 fuel g g' hguard hg']
        refine ih g' ?_ ?_ hp0 hp1 ?_
        · rw [hsw0]; exact hs1
        · rw [hsw1]; exact hs0
        · push_cast at hsum ⊢
          omega
      · rw [playGo_stop d4 d6 100 (fuel + 1) g hguard]
        unfold playResult
        by_cases hw : g.who = 1
        · rw [if_pos hw]
          exact ⟨_, _, rfl, by omega⟩
        · rw [if_neg hw]
          exact ⟨_, _, rfl, by omega⟩

/-! ### The player-indexed reference engine (spec §4.3) -/

/-- State of the player-indexed engine described by the spec: the two
scores are stored per player, with `who` the active player. -/
structure IState where
  score0 : ℤ
  score1 : ℤ
  who : ℕ
  k4 : ℕ
  k6 : ℕ

/-- Modelled from the spec's §4.3 state machine: one turn of the
player-indexed engine.  The active player's score is increased, the swap
rule (`opponent = 2 × active` or `active = 2 × opponent`) exchanges the two
players' scores, and the active role alternates. -/
def playerIndexedTurn (s0 s1 : Strategy) (d4 d6 : ℕ → ℕ) (i : IState) :
    Option IState :=
  let my := if i.who = 0 then i.score0 else i.score1
  let op := if i.who = 0 then i.score1 else i.score0
  let strat := if i.who = 0 then s0 else s1
  let four := select_dice my op
  let d := if four then d4 else d6
  let k := if four then i.k4 else i.k6
  match take_turn (strat my op) op d k with
  | none => none
  | some (v, k') =>
      let my := my + v
      let q := if op = 2 * my ∨ my = 2 * op then (op, my) else (my, op)
      some { score0 := if i.who = 0 then q.1 else q.2,
             score1 := if i.who = 0 then q.2 else q.1,
             who := 1 - i.who,
             k4 := if four then k' else i.k4,
             k6 := if four then i.k6 else k' }

/-- Modelled from the spec's §4.3: the player-indexed game loop; it always
reports `(score of player 0, score of player 1)` in that fixed order. -/
def playerIndexedGo (s0 s1 : Strategy) (d4 d6 : ℕ → ℕ) (goal : ℤ) :
    ℕ → IState → Option (ℤ × ℤ)
  | 0, i =>
      if i.score0 < goal ∧ i.score1 < goal then none
      else some (i.score0, i.score1)
  | fuel + 1, i =>
      if i.score0 < goal ∧ i.score1 < goal then
        match playerIndexedTurn s0 s1 d4 d6 i with
        | none => none
        | some i' => playerIndexedGo s0 s1 d4 d6 goal fuel i'
      else some (i.score0, i.score1)

/-- Modelled from the spec's §4.3: a full player-indexed game. -/
def playerIndexedPlay (s0 s1 : Strategy) (d4 d6 : ℕ → ℕ) (goal : ℤ)
    (fuel : ℕ) : Option (ℤ × ℤ) :=
  playerIndexedGo s0 s1 d4 d6 goal fuel ⟨0, 0, 0, 0, 0⟩

/-- The Swine-swap of the source, restated with the spec's
multiplication-form condition. -/
theorem applySwap_eq_spec (s o : ℤ) :
    applySwap s o = if o = 2 * s ∨ s = 2 * o then (o, s) else (s, o) := by
  unfold applySwap
  by_cases h : o - s = s ∨ s - o = o
  · rw [if_pos h, if_pos (by omega)]
  · rw [if_neg h, if_neg (by omega)]

/-- The coupling between a `play` loop state and a player-indexed state:
same counters, same active player, and the turn-indexed score/strategy
variables hold the active player's data. -/
def Coupled (s0 s1 : Strategy) (g : GState) (i : IState) : Prop :=
  g.k4 = i.k4 ∧ g.k6 = i.k6 ∧ g.who = i.who ∧
    ((i.who = 0 ∧ g.score = i.score0 ∧ g.opp = i.score1 ∧
        g.s0 = s0 ∧ g.s1 = s1) ∨
     (i.who = 1 ∧ g.score = i.score1 ∧ g.opp = i.score0 ∧
        g.s0 = s1 ∧ g.s1 = s0))

/-- One turn preserves the coupling: the source loop body and the spec's
player-indexed transition fail together or step to coupled states. -/
theorem coupled_turn (s0 s1 : Strategy) (d4 d6 : ℕ → ℕ) (g : GState)
    (i : IState) (hc : Coupled s0 s1 g i) :
    (playTurn d4 d6 g = none ∧ playerIndexedTurn s0 s1 d4 d6 i = none) ∨
    (∃ g' i', playTurn d4 d6 g = some g' ∧
      playerIndexedTurn s0 s1 d4 d6 i = some i' ∧ Coupled s0 s1 g' i') := by
  obtain ⟨hk4, hk6, hwho, hcase⟩ := hc
  unfold playTurn playerIndexedTurn
  rcases hcase with ⟨hw, hsc, hop, hs0, hs1⟩ | ⟨hw, hsc, hop, hs0, hs1⟩
  · simp only [hw, hsc, hop, hs0, hs1, hk4, hk6, hwho, eq_self_iff_true, if_true]
    cases htt : take_turn (s0 i.score0 i.score1) i.score1
        (if select_dice i.score0 i.score1 then d4 else d6)
        (if select_dice i.score0 i.score1 then i.k4 else i.k6) with
    | none => exact Or.inl ⟨rfl, rfl⟩
    | some vk =>
        obtain ⟨v, k'⟩ := vk
        dsimp only
        rw [applySwap_eq_spec]
        exact Or.inr ⟨_, _, rfl, rfl,
          rfl, rfl, rfl, Or.inr ⟨rfl, rfl, rfl, rfl, rfl⟩⟩
  · simp only [hw, hsc, hop, hs0, hs1, hk4, hk6, hwho, Nat.one_ne_zero,
      if_false]
    cases htt : take_turn (s1 i.score1 i.score0) i.score0
        (if select_dice i.score1 i.score0 then d4 else d6)
        (if select_dice i.score1 i.score0 then i.k4 else i.k6) with
    | none => exact Or.inl ⟨rfl, rfl⟩
    | some vk =>
        obtain ⟨v, k'⟩ := vk
        dsimp only
        rw [applySwap_eq_spec]
        refine Or.inr ⟨_, _, rfl, rfl, rfl, rfl, ?_, Or.inl ⟨?_, rfl, rfl, rfl, rfl⟩⟩
        · rfl
        · rfl

/-- Coupled states agree on the loop guard. -/
theorem coupled_guard (s0 s1 : Strategy) (goal : ℤ) (g : GState) (i : IState)
    (hc : Coupled s0 s1 g i) :
    ((g.score < goal ∧ g.opp < goal) ↔ (i.score0 < goal ∧ i.score1 < goal)) := by
  obtain ⟨_, _, _, hcase⟩ := hc
  rcases hcase with ⟨_, hsc, hop, _, _⟩ | ⟨_, hsc, hop, _, _⟩ <;>
    rw [hsc, hop] <;> tauto

/-- On coupled states, the source's final reversal produces exactly the
player-indexed pair. -/
theorem coupled_result (s0 s1 : Strategy) (g : GState) (i : IState)
    (hc : Coupled s0 s1 g i) : playResult g = (i.score0, i.score1) := by
  obtain ⟨_, _, hwho, hcase⟩ := hc
  unfold playResult
  rcases hcase with ⟨hw, hsc, hop, _, _⟩ | ⟨hw, hsc, hop, _, _⟩
  · rw [hsc, hop, hwho, hw, if_neg (by omega)]
  · rw [hsc, hop, hwho, hw, if_pos rfl]

/-- The source game loop and the spec's player-indexed loop compute the
same result from coupled states. -/
theorem coupled_go (s0 s1 : Strategy) (d4 d6 : ℕ → ℕ) (goal : ℤ) :
    ∀ (fuel : ℕ) (g : GState) (i : IState), Coupled s0 s1 g i →
      playGo d4 d6 goal fuel g = playerIndexedGo s0 s1 d4 d6 goal fuel i := by
  intro fuel
  induction fuel with
  | zero =>
      intro g i hc
      simp only [playGo, playerIndexedGo]
      by_cases hg : i.score0 < goal ∧ i.score1 < goal
      · rw [if_pos ((coupled_guard s0 s1 goal g i hc).mpr hg), if_pos hg]
      · rw [if_neg (fun h => hg ((coupled_guard s0 s1 goal g i hc).mp h)),
          if_neg hg, coupled_result s0 s1 g i hc]
  | succ fuel ih =>
      intro g i hc
      simp only [playGo, playerIndexedGo]
      by_cases hg : i.score0 < goal ∧ i.score1 < goal
      · rw [if_pos ((coupled_guard s0 s1 goal g i hc).mpr hg), if_pos hg]
        rcases coupled_turn s0 s1 d4 d6 g i hc with ⟨hn1, hn2⟩ | ⟨g', i', h1, h2, hc'⟩
        · rw [hn1, hn2]
        · rw [h1, h2]
          exact ih g' i' hc'
      · rw [if_neg (fun h => hg ((coupled_guard s0 s1 goal g i hc).mp h)),
          if_neg hg, coupled_result s0 s1 g i hc]

/-- C1: with strategies returning roll counts in `[0, 10]` and dice
sources producing outcomes `≥ 1`, `play` at goal `100` (fuel `200`
suffices) returns a pair with at least one component `≥ 100`, and that
pair is exactly what the spec's player-indexed engine reports: `(player 0
final score, player 1 final score)` in that fixed order, whoever took the
final turn. -/
theorem play_result_spec (s0 s1 : Strategy) (d4 d6 : ℕ → ℕ)
    (hs0 : ∀ a b, 0 ≤ s0 a b ∧ s0 a b ≤ 10)
    (hs1 : ∀ a b, 0 ≤ s1 a b ∧ s1 a b ≤ 10)
    (hd4 : ∀ i, 1 ≤ d4 i) (hd6 : ∀ i, 1 ≤ d6 i) :
    ∃ a b, play s0 s1 d4 d6 100 200 = some (a, b) ∧ (100 ≤ a ∨ 100 ≤ b) ∧
      playerIndexedPlay s0 s1 d4 d6 100 200 = some (a, b) := by
  obtain ⟨a, b, hab, hgoal⟩ := playGo_total d4 d6 hd4 hd6 200
    ⟨0, 0, s0, s1, 0, 0, 0⟩ hs0 hs1 le_rfl le_rfl (by norm_num)
  refine ⟨a, b, hab, hgoal, ?_⟩
  have hcoup : Coupled s0 s1 (⟨0, 0, s0, s1, 0, 0, 0⟩ : GState)
      (⟨0, 0, 0, 0, 0⟩ : IState) :=
    ⟨rfl, rfl, rfl, Or.inl ⟨rfl, rfl, rfl, rfl, rfl⟩⟩
  have hgo := coupled_go s0 s1 d4 d6 100 200 ⟨0, 0, s0, s1, 0, 0, 0⟩
    ⟨0, 0, 0, 0, 0⟩ hcoup
  unfold playerIndexedPlay
  rw [← hgo]
  exact hab

/-- Witness for `play_result_spec`: both players always roll 5 dice, all
dice outcomes are 2. -/
theorem play_result_spec_witness :
    ∃ a b, play (fun _ _ => 5) (fun _ _ => 5) (fun _ => 2) (fun _ => 2) 100 200
        = some (a, b) ∧ (100 ≤ a ∨ 100 ≤ b) ∧
      playerIndexedPlay (fun _ _ => 5) (fun _ _ => 5) (fun _ => 2) (fun _ => 2)
        100 200 = some (a, b) :=
  play_result_spec (fun _ _ => 5) (fun _ _ => 5) (fun _ => 2) (fun _ => 2)
    (fun _ _ => ⟨by norm_num, by norm_num⟩)
    (fun _ _ => ⟨by norm_num, by norm_num⟩)
    (fun _ => by norm_num) (fun _ => by norm_num)

/-- C2: in every turn of `play`, once the active player's score has been
increased by the turn value `v`, the two scores are exchanged exactly once
if and only if one is exactly double the other (`opponent = 2 × active` or
`active = 2 × opponent`, exact integer arithmetic); otherwise they are
kept.  (`g'.opp`, `g'.score`) are the active/opponent scores after the
swap rule, read back from the role exchange that ends the turn. -/
theorem playTurn_swap_iff_double (d4 d6 : ℕ → ℕ) (g : GState) (v : ℤ) (k' : ℕ)
    (h : take_turn (g.s0 g.score g.opp) g.opp
        (if select_dice g.score g.opp then d4 else d6)
        (if select_dice g.score g.opp then g.k4 else g.k6) = some (v, k')) :
    ∃ g', playTurn d4 d6 g = some g' ∧
      ((g'.opp, g'.score) =
        if g.opp = 2 * (g.score + v) ∨ g.score + v = 2 * g.opp
        then (g.opp, g.score + v) else (g.score + v, g.opp)) := by
  simp only [playTurn]
  rw [h]
  refine ⟨_, rfl, ?_⟩
  dsimp only
  rw [applySwap_eq_spec]

/-- Witness for `playTurn_swap_iff_double`: active score 12, opponent 34,
the active player rolls 0 dice for 5 free-bacon points, and since
`34 = 2 × 17` the swap fires. -/
theorem playTurn_swap_iff_double_witness :
    ∃ g', playTurn (fun _ => 6) (fun _ => 6)
        ⟨12, 34, fun _ _ => 0, fun _ _ => 0, 0, 0, 0⟩ = some g' ∧
      ((g'.opp, g'.score) =
        if (34 : ℤ) = 2 * (12 + 5) ∨ (12 : ℤ) + 5 = 2 * 34
        then ((34 : ℤ), (12 : ℤ) + 5) else ((12 : ℤ) + 5, (34 : ℤ))) :=
  playTurn_swap_iff_double (fun _ => 6) (fun _ => 6)
    ⟨12, 34, fun _ _ => 0, fun _ _ => 0, 0, 0, 0⟩ 5 0 (by decide)

/-- C6: with strategies in `[0, 10]` and dice outcomes `≥ 1`, every loop
iteration of `play` strictly increases the sum of the two scores by at
least `1`, and consequently the game loop at goal `100` terminates within
`200` turns with a result. -/
theorem play_terminates (s0 s1 : Strategy) (d4 d6 : ℕ → ℕ)
    (hs0 : ∀ a b, 0 ≤ s0 a b ∧ s0 a b ≤ 10)
    (hs1 : ∀ a b, 0 ≤ s1 a b ∧ s1 a b ≤ 10)
    (hd4 : ∀ i, 1 ≤ d4 i) (hd6 : ∀ i, 1 ≤ d6 i) :
    (∀ g : GState, (∀ a b, 0 ≤ g.s0 a b ∧ g.s0 a b ≤ 10) →
        0 ≤ g.score → 0 ≤ g.opp → g.opp < 100 →
        ∃ g', playTurn d4 d6 g = some g' ∧
          g.score + g.opp + 1 ≤ g'.score + g'.opp) ∧
      ∃ r, play s0 s1 d4 d6 100 200 = some r := by
  constructor
  · intro g hg h0 h1 h2
    obtain ⟨g', hstep, _, _, hp, _, _⟩ :=
      playTurn_progress d4 d6 hd4 hd6 g hg h0 h1 h2
    exact ⟨g', hstep, hp⟩
  · obtain ⟨a, b, hab, _⟩ := playGo_total d4 d6 hd4 hd6 200
      ⟨0, 0, s0, s1, 0, 0, 0⟩ hs0 hs1 le_rfl le_rfl (by norm_num)
    exact ⟨(a, b), hab⟩

/-- Witness for `play_terminates`: both players always roll 10 dice, all
dice outcomes are 3. -/
theorem play_terminates_witness :
    (∀ g : GState, (∀ a b, 0 ≤ g.s0 a b ∧ g.s0 a b ≤ 10) →
        0 ≤ g.score → 0 ≤ g.opp → g.opp < 100 →
        ∃ g', playTurn (fun _ => 3) (fun _ => 3) g = some g' ∧
          g.score + g.opp + 1 ≤ g'.score + g'.opp) ∧
      ∃ r, play (fun _ _ => 10) (fun _ _ => 10) (fun _ => 3) (fun _ => 3)
          100 200 = some r :=
  play_terminates (fun _ _ => 10) (fun _ _ => 10) (fun _ => 3) (fun _ => 3)
    (fun _ _ => ⟨by norm_num, by norm_num⟩)
    (fun _ _ => ⟨by norm_num, by norm_num⟩)
    (fun _ => by norm_num) (fun _ => by norm_num)

/-! ### The strategy library -/

/-- `always_roll(n)`. -/
def always_roll (n : ℤ) : Strategy := fun _score _oppScore => n

/-- `bacon_strategy(score, opponent_score)`. -/
def bacon_strategy (score oppScore : ℤ) : ℤ :=
  if BACON_MARGIN ≤ max (Int.fdiv oppScore 10) (oppScore % 10) + 1 then 0
  else BASELINE_NUM_ROLLS

/-- `swap_strategy(score, opponent_score)`. -/
def swap_strategy (score oppScore : ℤ) : ℤ :=
  let swap := score + (1 + max (Int.fdiv oppScore 10) (oppScore % 10))
  if oppScore - swap = swap then 0
  else if swap - oppScore = oppScore then BASELINE_NUM_ROLLS
  else bacon_strategy score oppScore

/-- The inner `repeated_strategy()` closure of `final_strategy`, with its
captured variables (`type_dice`, the scores, `best_num_dice`) passed
explicitly.  The trailing goal-score test is duplicated into both
dice-kind branches, exactly as every fall-through path reaches it. -/
def repeated_strategy (four : Bool) (score oppScore best : ℤ) : ℤ :=
  let difference := Int.fdiv oppScore 2 - score
  if four then
    if difference ≤ 1 then 10
    else if difference ≤ 2 then 1
    else if difference ≤ 3 then 2
    else if difference ≤ 4 then 3
    else if difference ≤ 5 then 3
    else if GOAL_SCORE ≤ score + best then 2
    else best
  else
    if difference ≤ 1 then 10
    else if difference < 4 then 1
    else if difference ≤ 8 then 2
    else if difference ≤ 12 then 3
    else if difference ≤ 17 then 4
    else if GOAL_SCORE ≤ score + best then 2
    else best

/-- Everything of `final_strategy` after its first `return 0` test (the
four-sided branch, the end-game branches, and the fallbacks).  The
divisions by `opponent_score` at the `roll0 % opponent_score` site are
evaluated exactly when Python would evaluate them: `none` models a
`ZeroDivisionError`. -/
def final_strategy_tail (score oppScore b4 b6 : ℤ) : Option ℤ :=
  let four := select_dice score oppScore
  let roll0 := score + (1 + max (Int.fdiv oppScore 10) (oppScore % 10))
  let best_num_dice := if four then b4 else b6
  if four then
    match (if oppScore < roll0 ∧ roll0 = 2 then
             (if oppScore = 0 then none
              else some (decide (Int.fmod roll0 oppScore = 0)))
           else some false : Option Bool) with
    | none => none
    | some c2 =>
        if c2 = true then some best_num_dice
        else if score < oppScore ∧ 0 < Int.fdiv oppScore 2 - score then
          some (repeated_strategy four score oppScore best_num_dice)
        else if 4 ≤ max (Int.fdiv oppScore 10) (oppScore % 10) + 1 then some 0
        else some best_num_dice
  else if 80 < oppScore ∧ 91 < score then some 0
  else if 100 ≤ score + max (Int.fdiv oppScore 10) (oppScore % 10) then
    if oppScore ≠ 0 ∧ Int.fdiv roll0 oppScore = 2 ∧ Int.fmod roll0 oppScore = 0
    then some best_num_dice
    else some 0
  else if select_dice roll0 oppScore then
    if oppScore ≠ 0 ∧ Int.fdiv roll0 oppScore = 2 ∧ Int.fmod roll0 oppScore = 0
    then some best_num_dice
    else some 0
  else if score < oppScore ∧ 0 < Int.fdiv oppScore 2 - score then
    some (repeated_strategy four score oppScore best_num_dice)
  else if 50 < oppScore ∧ 15 < score - oppScore then some 0
  else if GOAL_SCORE ≤ score + best_num_dice then some 2
  else some best_num_dice

/-- `final_strategy(score, opponent_score)`, with the two precomputed
best roll counts (`four_sided_max`, `six_sided_max`) and the six-sided
dice stream (consumed by the unused `estimate = opponent_score +
roll_dice(5)`) passed explicitly.  `none` models a Python error. -/
def final_strategy (score oppScore b4 b6 : ℤ) (d6 : ℕ → ℕ) (k6 : ℕ) :
    Option ℤ :=
  let roll0 := score + (1 + max (Int.fdiv oppScore 10) (oppScore % 10))
  let diff := oppScore - score
  let estimate := oppScore + ((roll_dice 5 d6 k6).1 : ℤ)
  match (if roll0 < oppScore then
           if roll0 = 0 then none
           else some (decide (Int.fdiv oppScore roll0 = 2) &&
                      decide (Int.fmod oppScore roll0 = 0))
         else some false : Option Bool) with
  | none => none
  | some c1 =>
      if c1 = true then some 0
      else final_strategy_tail score oppScore b4 b6

/-- `select_dice` is four-sided exactly on multiples of 7. -/
theorem select_dice_eq_true (s o : ℤ) :
    select_dice s o = true ↔ (s + o) % 7 = 0 := by
  unfold select_dice
  exact beq_iff_eq

/-- `repeated_strategy` stays within `[0, 10]` whenever the configured
best roll count does. -/
theorem repeated_strategy_range (four : Bool) (score oppScore best : ℤ)
    (hb : 0 ≤ best ∧ best ≤ 10) :
    0 ≤ repeated_strategy four score oppScore best ∧
      repeated_strategy four score oppScore best ≤ 10 := by
  unfold repeated_strategy GOAL_SCORE
  cases four <;> dsimp only <;> split_ifs <;> omega

/-- The tail of `final_strategy` always evaluates without a division by
zero for own score `≥ 0` and opponent score `≥ 0`, and its value lies in
`[0, 10]` whenever the two configured best roll counts do. -/
theorem final_strategy_tail_spec (score oppScore b4 b6 : ℤ)
    (hs : 0 ≤ score) (h0 : 0 ≤ oppScore) :
    ∃ v, final_strategy_tail score oppScore b4 b6 = some v ∧
      (1 ≤ b4 → b4 ≤ 10 → 1 ≤ b6 → b6 ≤ 10 → 0 ≤ v ∧ v ≤ 10) := by
  have hfd : 0 ≤ Int.fdiv oppScore 10 := Int.fdiv_nonneg h0 (by norm_num)
  have hem : 0 ≤ oppScore % 10 := Int.emod_nonneg oppScore (by norm_num)
  have hmx : 0 ≤ max (Int.fdiv oppScore 10) (oppScore % 10) :=
    le_trans hfd (le_max_left _ _)
  simp only [final_strategy_tail]
  cases hfour : select_dice score oppScore with
  | true =>
      simp only [if_true]
      by_cases hc : oppScore < score + (1 + max (Int.fdiv oppScore 10) (oppScore % 10)) ∧
          score + (1 + max (Int.fdiv oppScore 10) (oppScore % 10)) = 2
      · have hopp : ¬(oppScore = 0) := by
          intro h
          have h7 : (score + oppScore) % 7 = 0 :=
            (select_dice_eq_true score oppScore).mp hfour
          rw [h] at hc
          have hz : Int.fdiv 0 10 = 0 := by decide
          have hz2 : (0 : ℤ) % 10 = 0 := by decide
          rw [hz, hz2] at hc
          have hsc : score = 1 := by
            have := hc.2
            simp only [max_self] at this
            omega
          rw [h, hsc] at h7
          norm_num at h7
        rw [if_pos hc, if_neg hopp]
        dsimp only
        by_cases hc2 : decide (Int.fmod
            (score + (1 + max (Int.fdiv oppScore 10) (oppScore % 10))) oppScore = 0) = true
        · rw [if_pos hc2]
          exact ⟨b4, rfl, fun a b _ _ => ⟨by omega, by omega⟩⟩
        · rw [if_neg hc2]
          split_ifs with hr hm4
          · refine ⟨_, rfl, fun a b _ _ => ?_⟩
            have := repeated_strategy_range true score oppScore b4 ⟨by omega, by omega⟩
            exact ⟨this.1, this.2⟩
          · exact ⟨0, rfl, fun _ _ _ _ => ⟨by norm_num, by norm_num⟩⟩
          · exact ⟨b4, rfl, fun a b _ _ => ⟨by omega, by omega⟩⟩
      · rw [if_neg hc]
        dsimp only
        rw [if_neg (by simp)]
        split_ifs with hr hm4
        · refine ⟨_, rfl, fun a b _ _ => ?_⟩
          have := repeated_strategy_range true score oppScore b4 ⟨by omega, by omega⟩
          exact ⟨this.1, this.2⟩
        · exact ⟨0, rfl, fun _ _ _ _ => ⟨by norm_num, by norm_num⟩⟩
        · exact ⟨b4, rfl, fun a b _ _ => ⟨by omega, by omega⟩⟩
  | false =>
      simp only [Bool.false_eq_true, if_false]
      split_ifs with h1 h2 h3 h4 h5 h6 h7 h8 h9
      · exact ⟨0, rfl, fun _ _ _ _ => ⟨by norm_num, by norm_num⟩⟩
      · exact ⟨b6, rfl, fun _ _ a b => ⟨by omega, by omega⟩⟩
      · exact ⟨0, rfl, fun _ _ _ _ => ⟨by norm_num, by norm_num⟩⟩
      · exact ⟨b6, rfl, fun _ _ a b => ⟨by omega, by omega⟩⟩
      · exact ⟨0, rfl, fun _ _ _ _ => ⟨by norm_num, by norm_num⟩⟩
      · refine ⟨_, rfl, fun _ _ a b => ?_⟩
        have := repeated_strategy_range false score oppScore b6 ⟨by omega, by omega⟩
        exact ⟨this.1, this.2⟩
      · exact ⟨0, rfl, fun _ _ _ _ => ⟨by norm_num, by norm_num⟩⟩
      · exact ⟨2, rfl, fun _ _ _ _ => ⟨by norm_num, by norm_num⟩⟩
      · exact ⟨b6, rfl, fun _ _ a b => ⟨by omega, by omega⟩⟩

/-- `final_strategy` always evaluates without a division by zero for own
score `≥ 0` and opponent score `≥ 0`, and its value lies in `[0, 10]`
whenever the two configured best roll counts do. -/
theorem final_strategy_spec (score oppScore b4 b6 : ℤ) (d6 : ℕ → ℕ) (k6 : ℕ)
    (hs : 0 ≤ score) (h0 : 0 ≤ oppScore) :
    ∃ v, final_strategy score oppScore b4 b6 d6 k6 = some v ∧
      (1 ≤ b4 → b4 ≤ 10 → 1 ≤ b6 → b6 ≤ 10 → 0 ≤ v ∧ v ≤ 10) := by
  have hfd : 0 ≤ Int.fdiv oppScore 10 := Int.fdiv_nonneg h0 (by norm_num)
  have hem : 0 ≤ oppScore % 10 := Int.emod_nonneg oppScore (by norm_num)
  have hmx : 0 ≤ max (Int.fdiv oppScore 10) (oppScore % 10) :=
    le_trans hfd (le_max_left _ _)
  have hroll : ¬(score + (1 + max (Int.fdiv oppScore 10) (oppScore % 10)) = 0) := by
    omega
  simp only [final_strategy]
  rw [if_neg hroll]
  by_cases hlt : score + (1 + max (Int.fdiv oppScore 10) (oppScore % 10)) < oppScore
  · rw [if_pos hlt]
    dsimp only
    by_cases hb : (decide (Int.fdiv oppScore
          (score + (1 + max (Int.fdiv oppScore 10) (oppScore % 10))) = 2) &&
        decide (Int.fmod oppScore
          (score + (1 + max (Int.fdiv oppScore 10) (oppScore % 10))) = 0)) = true
    · rw [if_pos hb]
      exact ⟨0, rfl, fun _ _ _ _ => ⟨by norm_num, by norm_num⟩⟩
    · rw [if_neg hb]
      exact final_strategy_tail_spec score oppScore b4 b6 hs h0
  · rw [if_neg hlt]
    dsimp only
    rw [if_neg (by simp)]
    exact final_strategy_tail_spec score oppScore b4 b6 hs h0

/-- C8: every strategy in the library — `always_roll n` for a configured
`n ∈ [0,10]`, `bacon_strategy`, `swap_strategy`, and `final_strategy`
(with best roll counts in `[1,10]`, as `max_scoring_num_rolls` produces) —
returns an integer in `[0, 10]` for every own score `≥ 0` and opponent
score in `[0, 100)`, so `take_turn`'s roll-count assertions cannot fire. -/
theorem strategies_in_range :
    (∀ n : ℤ, 0 ≤ n → n ≤ 10 →
      ∀ s o : ℤ, 0 ≤ always_roll n s o ∧ always_roll n s o ≤ 10) ∧
    (∀ s o : ℤ, 0 ≤ bacon_strategy s o ∧ bacon_strategy s o ≤ 10) ∧
    (∀ s o : ℤ, 0 ≤ swap_strategy s o ∧ swap_strategy s o ≤ 10) ∧
    (∀ b4 b6 : ℤ, 1 ≤ b4 → b4 ≤ 10 → 1 ≤ b6 → b6 ≤ 10 →
      ∀ s o : ℤ, 0 ≤ s → 0 ≤ o → o < 100 → ∀ (d6 : ℕ → ℕ) (k6 : ℕ),
        ∃ v, final_strategy s o b4 b6 d6 k6 = some v ∧ 0 ≤ v ∧ v ≤ 10) := by
  have hbacon : ∀ s o : ℤ, 0 ≤ bacon_strategy s o ∧ bacon_strategy s o ≤ 10 := by
    intro s o
    unfold bacon_strategy BACON_MARGIN BASELINE_NUM_ROLLS
    split_ifs <;> omega
  refine ⟨?_, hbacon, ?_, ?_⟩
  · intro n h1 h2 s o
    unfold always_roll
    exact ⟨h1, h2⟩
  · intro s o
    unfold swap_strategy BASELINE_NUM_ROLLS
    dsimp only
    split_ifs <;> first | omega | exact hbacon s o
  · intro b4 b6 ha1 ha2 ha3 ha4 s o hs ho _ho2 d6 k6
    obtain ⟨v, hv, hrange⟩ := final_strategy_spec s o b4 b6 d6 k6 hs ho
    exact ⟨v, hv, hrange ha1 ha2 ha3 ha4⟩

/-- Witness for `strategies_in_range` at concrete inputs. -/
theorem strategies_in_range_witness :
    (0 ≤ always_roll 5 0 0 ∧ always_roll 5 0 0 ≤ 10) ∧
    (0 ≤ bacon_strategy 0 0 ∧ bacon_strategy 0 0 ≤ 10) ∧
    (0 ≤ swap_strategy 23 60 ∧ swap_strategy 23 60 ≤ 10) ∧
    (∃ v, final_strategy 0 24 1 1 (fun _ => 6) 0 = some v ∧ 0 ≤ v ∧ v ≤ 10) := by
  obtain ⟨h1, h2, h3, h4⟩ := strategies_in_range
  exact ⟨h1 5 (by norm_num) (by norm_num) 0 0, h2 0 0, h3 23 60,
    h4 1 1 (by norm_num) (by norm_num) (by norm_num) (by norm_num) 0 24
      (by norm_num) (by norm_num) (by norm_num) (fun _ => 6) 0⟩

/-- C9: `final_strategy` is deterministic in its two score arguments: its
result (including whether it errors) is the same for any dice stream and
any stream position, because the `estimate = opponent_score + roll_dice(5)`
draw is never used; so two calls with identical score inputs return
identical outputs, with no dependence on the dice or on state carried
between calls.  The remaining library strategies are literally functions
of their two arguments, so their purity is definitional. -/
theorem final_strategy_deterministic (score oppScore b4 b6 : ℤ)
    (d6 d6' : ℕ → ℕ) (k6 k6' : ℕ) :
    final_strategy score oppScore b4 b6 d6 k6 =
      final_strategy score oppScore b4 b6 d6' k6' := rfl

/-- C10: for every own score `≥ 0` and opponent score in `[0, 100)`,
`final_strategy` never divides or takes a modulus by zero: the checked
evaluation (where a zero divisor yields `none`) always succeeds.  The
unguarded `roll0 % opponent_score` site is unreachable with opponent score
`0`: its guard forces `score = 1`, which contradicts the four-sided-dice
condition `score % 7 = 0`. -/
theorem final_strategy_no_div_by_zero (score oppScore b4 b6 : ℤ)
    (d6 : ℕ → ℕ) (k6 : ℕ) (hs : 0 ≤ score) (h0 : 0 ≤ oppScore)
    (h1 : oppScore < 100) :
    (final_strategy score oppScore b4 b6 d6 k6).isSome = true := by
  obtain ⟨v, hv, _⟩ := final_strategy_spec score oppScore b4 b6 d6 k6 hs h0
  rw [hv]
  rfl

/-- Witness for `final_strategy_no_div_by_zero` at score 1, opponent 13
(six-sided dice, near the hazardous configuration). -/
theorem final_strategy_no_div_by_zero_witness :
    (final_strategy 1 13 10 6 (fun _ => 6) 0).isSome = true :=
  final_strategy_no_div_by_zero 1 13 10 6 (fun _ => 6) 0
    (by norm_num) (by norm_num) (by norm_num)

/-! ### `make_averaged` and `max_scoring_num_rolls` -/

/-- The sampling loop of `make_averaged(roll_dice, num_samples)`:
remaining samples, dice counter, running total. -/
def averageGo (n : ℕ) (d : ℕ → ℕ) : ℕ → ℕ → ℕ → ℕ × ℕ
  | 0, k, total => (total, k)
  | m + 1, k, total =>
      let r := roll_dice n d k
      averageGo n d m r.2 (total + r.1)

/-- `make_averaged(roll_dice, num_samples)(n, dice)`: the mean of
`num_samples` successive `roll_dice(n, dice)` values as an exact rational,
together with the advanced dice counter. -/
def make_averaged_roll_dice (numSamples n : ℕ) (d : ℕ → ℕ) (k : ℕ) : ℚ × ℕ :=
  let p := averageGo n d numSamples k 0
  ((p.1 : ℚ) / (numSamples : ℚ), p.2)

/-- The `while count <= 10` loop of `max_scoring_num_rolls`: remaining
counts, current count, dice counter, `best_avg`, `best_num`. -/
def msnrGo (d : ℕ → ℕ) : ℕ → ℕ → ℕ → ℚ → ℕ → ℕ
  | 0, _, _, _, bestNum => bestNum
  | rem + 1, count, k, bestAvg, bestNum =>
      let p := make_averaged_roll_dice 1000 count d k
      let bestAvg2 := max bestAvg p.1
      let bestNum2 := if p.1 = bestAvg2 then count else bestNum
      msnrGo d rem (count + 1) p.2 bestAvg2 bestNum2

/-- `max_scoring_num_rolls(dice)` starting at dice counter `k`. -/
def max_scoring_num_rolls (d : ℕ → ℕ) (k : ℕ) : ℕ := msnrGo d 10 1 k 0 1

/-- The ten averages the loop inspects, in order, with the dice counter
threaded from one count to the next. -/
def msnrAvgs (d : ℕ → ℕ) : ℕ → ℕ → ℕ → List ℚ
  | 0, _, _ => []
  | rem + 1, count, k =>
      let p := make_averaged_roll_dice 1000 count d k
      p.1 :: msnrAvgs d rem (count + 1) p.2

/-- The pure content of the `max_scoring_num_rolls` loop over the list of
averages: running maximum `b`, current best index `nbest`. -/
def bestOf (count : ℕ) (b : ℚ) (nbest : ℕ) : List ℚ → ℕ
  | [] => nbest
  | a :: l =>
      bestOf (count + 1) (max b a) (if a = max b a then count else nbest) l

/-- The loop equals the pure fold over its list of averages. -/
theorem msnrGo_eq_bestOf (d : ℕ → ℕ) :
    ∀ (rem count k : ℕ) (b : ℚ) (nb : ℕ),
      msnrGo d rem count k b nb = bestOf count b nb (msnrAvgs d rem count k) := by
  intro rem
  induction rem with
  | zero => intro count k b nb; rfl
  | succ rem ih =>
      intro count k b nb
      simp only [msnrGo, msnrAvgs, bestOf]
      exact ih (count + 1) _ _ _

/-- There are exactly `rem` inspected averages. -/
theorem msnrAvgs_length (d : ℕ → ℕ) :
    ∀ (rem count k : ℕ), (msnrAvgs d rem count k).length = rem := by
  intro rem
  induction rem with
  | zero => intro count k; rfl
  | succ rem ih =>
      intro count k
      simp only [msnrAvgs, List.length_cons, ih]

/-- Sampled averages are nonnegative. -/
theorem msnrAvgs_nonneg (d : ℕ → ℕ) :
    ∀ (rem count k : ℕ), ∀ a ∈ msnrAvgs d rem count k, 0 ≤ a := by
  intro rem
  induction rem with
  | zero => intro count k a ha; simp [msnrAvgs] at ha
  | succ rem ih =>
      intro count k a ha
      simp only [msnrAvgs, List.mem_cons] at ha
      rcases ha with ha | ha
      · rw [ha]
        unfold make_averaged_roll_dice
        exact div_nonneg (by positivity) (by norm_num)
      · exact ih (count + 1) _ a ha

/-- Folding `max` over a list with a larger seed. -/
theorem foldr_max_comm :
    ∀ (l : List ℚ) (b a : ℚ),
      l.foldr max (max b a) = max a (l.foldr max b) := by
  intro l
  induction l with
  | nil => intro b a; exact max_comm b a
  | cons c t ih =>
      intro b a
      simp only [List.foldr_cons, ih]
      exact max_left_comm c a (t.foldr max b)

/-- If every element is below the seed, the fold is the seed. -/
theorem foldr_max_of_le :
    ∀ (l : List ℚ) (b : ℚ), (∀ a ∈ l, a ≤ b) → l.foldr max b = b := by
  intro l
  induction l with
  | nil => intro b _; rfl
  | cons c t ih =>
      intro b h
      simp only [List.foldr_cons]
      rw [ih b (fun a ha => h a (List.mem_cons_of_mem c ha)),
        max_eq_right (h c (List.mem_cons_self c t))]

/-- If every element is strictly below the running best, `bestOf` never
re-assigns the best index. -/
theorem bestOf_of_all_lt :
    ∀ (l : List ℚ) (count : ℕ) (b : ℚ) (nb : ℕ),
      (∀ a ∈ l, a < b) → bestOf count b nb l = nb := by
  intro l
  induction l with
  | nil => intro count b nb _; rfl
  | cons c t ih =>
      intro count b nb h
      have hcb : c < b := h c (List.mem_cons_self c t)
      simp only [bestOf, max_eq_left hcb.le,
        if_neg (by exact fun hc => absurd hc (ne_of_lt hcb))]
      exact ih (count + 1) b nb (fun a ha => h a (List.mem_cons_of_mem c ha))

/-- The seed is below the fold. -/
theorem le_foldr_max : ∀ (l : List ℚ) (b : ℚ), b ≤ l.foldr max b := by
  intro l
  induction l with
  | nil => intro b; exact le_refl b
  | cons c u ih =>
      intro b
      exact le_trans (ih b) (le_max_right c (u.foldr max b))

/-- An in-range `getD` is a member. -/
theorem getD_mem_of_lt : ∀ (l : List ℚ) (j : ℕ), j < l.length → l.getD j 0 ∈ l := by
  intro l
  induction l with
  | nil => intro j h; simp at h
  | cons a t ih =>
      intro j h
      cases j with
      | zero => simp
      | succ j =>
          simp only [List.getD_cons_succ]
          exact List.mem_cons_of_mem a (ih j (by simpa using h))

/-- If some element is at least the seed, some element attains the fold. -/
theorem exists_foldr_max_le :
    ∀ (l : List ℚ) (b : ℚ), (∃ a ∈ l, b ≤ a) →
      ∃ a ∈ l, l.foldr max b ≤ a := by
  intro l
  induction l with
  | nil => rintro b ⟨x, hx, _⟩; simp at hx
  | cons c t ih =>
      rintro b ⟨x, hx, hbx⟩
      rcases le_total (t.foldr max b) c with h | h
      · exact ⟨c, List.mem_cons_self c t, by
          simp only [List.foldr_cons]
          rw [max_eq_left h]⟩
      · by_cases ht : ∃ y ∈ t, b ≤ y
        · obtain ⟨y, hy, hfy⟩ := ih b ht
          exact ⟨y, List.mem_cons_of_mem c hy, by
            simp only [List.foldr_cons]
            rw [max_eq_right h]
            exact hfy⟩
        · push_neg at ht
          have hfb : t.foldr max b = b :=
            foldr_max_of_le t b (fun a ha => (ht a ha).le)
          refine ⟨x, hx, ?_⟩
          simp only [List.foldr_cons, hfb]
          rcases List.mem_cons.mp hx with hxc | hxt
          · rw [hxc]
            rw [hfb] at h
            exact max_le (le_refl c) (hxc ▸ hbx)
          · exact absurd hbx (not_le.mpr (ht x hxt))

/-- The characterisation of `bestOf` when the fold's maximum is attained
by some element: the returned index points at the LAST element attaining
the maximum. -/
theorem bestOf_spec :
    ∀ (l : List ℚ) (count : ℕ) (b : ℚ) (nb : ℕ),
      (∃ a ∈ l, l.foldr max b ≤ a) →
      ∃ j, j < l.length ∧ bestOf count b nb l = count + j ∧
        l.getD j 0 = l.foldr max b ∧
        ∀ j', j < j' → j' < l.length → l.getD j' 0 < l.foldr max b := by
  intro l
  induction l with
  | nil => rintro count b nb ⟨x, hx, _⟩; simp at hx
  | cons a t ih =>
      intro count b nb hex
      have hfold : (a :: t).foldr max b = max a (t.foldr max b) := rfl
      have hfold2 : t.foldr max (max b a) = max a (t.foldr max b) :=
        foldr_max_comm t b a
      by_cases hext : ∃ y ∈ t, t.foldr max (max b a) ≤ y
      · obtain ⟨j, hj, hbest, hget, hlater⟩ :=
          ih (count + 1) (max b a) (if a = max b a then count else nb) hext
        refine ⟨j + 1, by simpa using Nat.succ_lt_succ hj, ?_, ?_, ?_⟩
        · rw [bestOf, hbest]
          omega
        · show t.getD j 0 = (a :: t).foldr max b
          rw [hget, hfold2, hfold]
        · intro j' hjj hj'
          match j', hjj with
          | j' + 1, hjj =>
              show t.getD j' 0 < (a :: t).foldr max b
              rw [hfold, ← hfold2]
              exact hlater j' (by omega) (by simpa using hj')
      · push_neg at hext
        have hallt : ∀ y ∈ t, y < max a (t.foldr max b) := by
          intro y hy
          have := hext y hy
          rwa [hfold2] at this
        have haM : a = max a (t.foldr max b) := by
          obtain ⟨x, hx, hMx⟩ := hex
          rcases List.mem_cons.mp hx with hxa | hxt
          · rw [hfold] at hMx
            rw [hxa] at hMx
            exact le_antisymm (le_max_left _ _) hMx
          · exact absurd (hext x hxt) (not_lt.mpr (by rwa [hfold2, ← hfold]))
        have hba : max b a = max a (t.foldr max b) := by
          have h1 : t.foldr max b ≤ a := by
            rw [haM]
            exact le_max_right a (t.foldr max b)
          have h2 : b ≤ t.foldr max b := le_foldr_max t b
          rw [max_eq_right (le_trans h2 h1)]
          exact haM
        refine ⟨0, by simp, ?_, ?_, ?_⟩
        · have hres : bestOf count b nb (a :: t) = count := by
            rw [bestOf, if_pos (by rw [hba, ← haM]),
              bestOf_of_all_lt t (count + 1) (max b a)
                count (by rw [hba]; exact hallt)]
          omega
        · show a = (a :: t).foldr max b
          rw [hfold, ← haM]
        · intro j' hjj hj'
          match j', hjj with
          | j' + 1, _ =>
              show t.getD j' 0 < (a :: t).foldr max b
              rw [hfold]
              exact hallt (t.getD j' 0) (getD_mem_of_lt t j' (by simpa using hj'))

/-- Every element is below the fold. -/
theorem foldr_max_le_of_mem :
    ∀ (l : List ℚ) (b a : ℚ), a ∈ l → a ≤ l.foldr max b := by
  intro l
  induction l with
  | nil => intro b a ha; simp at ha
  | cons c t ih =>
      intro b a ha
      rcases List.mem_cons.mp ha with h | h
      · rw [h]
        exact le_max_left c (t.foldr max b)
      · exact le_trans (ih b a h) (le_max_right c (t.foldr max b))

/-- C5 (amended): `max_scoring_num_rolls` returns a roll count `r` in
`1..10` whose sampled average (1000 samples per count, dice counter
chained through the loop) is maximal among counts `1..10`; but when
several counts tie for the maximal average it returns the HIGHEST such
count — the loop re-assigns `best_num` whenever the new average equals the
updated running maximum — not the first (lowest) one. -/
theorem max_scoring_num_rolls_spec (d : ℕ → ℕ) (k : ℕ) :
    1 ≤ max_scoring_num_rolls d k ∧ max_scoring_num_rolls d k ≤ 10 ∧
    (msnrAvgs d 10 1 k).getD (max_scoring_num_rolls d k - 1) 0 =
      (msnrAvgs d 10 1 k).foldr max 0 ∧
    (∀ c : ℕ, 1 ≤ c → c ≤ 10 →
      (msnrAvgs d 10 1 k).getD (c - 1) 0 ≤
        (msnrAvgs d 10 1 k).getD (max_scoring_num_rolls d k - 1) 0) ∧
    (∀ c : ℕ, 1 ≤ c → c ≤ 10 →
      (msnrAvgs d 10 1 k).getD (c - 1) 0 = (msnrAvgs d 10 1 k).foldr max 0 →
      c ≤ max_scoring_num_rolls d k) := by
  have hlen := msnrAvgs_length d 10 1 k
  have hnn := msnrAvgs_nonneg d 10 1 k
  have hex0 : ∃ a ∈ msnrAvgs d 10 1 k, (0 : ℚ) ≤ a := by
    cases hl : msnrAvgs d 10 1 k with
    | nil => rw [hl] at hlen; simp at hlen
    | cons a t =>
        refine ⟨a, List.mem_cons_self a t, ?_⟩
        have := hnn a (by rw [hl]; exact List.mem_cons_self a t)
        exact this
  have hex := exists_foldr_max_le (msnrAvgs d 10 1 k) 0 hex0
  have hrun : max_scoring_num_rolls d k = bestOf 1 0 1 (msnrAvgs d 10 1 k) :=
    msnrGo_eq_bestOf d 10 1 k 0 1
  obtain ⟨j, hj, hbest, hget, hlater⟩ := bestOf_spec (msnrAvgs d 10 1 k) 1 0 1 hex
  rw [hlen] at hj
  rw [hrun, hbest]
  have hidx : 1 + j - 1 = j := by omega
  refine ⟨by omega, by omega, ?_, ?_, ?_⟩
  · rw [hidx, hget]
  · intro c h1 h2
    rw [hidx, hget]
    exact foldr_max_le_of_mem _ 0 _
      (getD_mem_of_lt _ (c - 1) (by rw [hlen]; omega))
  · intro c h1 h2 hc
    by_contra hlt
    push_neg at hlt
    have hbad := hlater (c - 1) (by omega) (by rw [hlen]; omega)
    exact absurd hc (ne_of_lt hbad)

/-- With dice that always roll 1, every rolled turn pigs out to value 1. -/
theorem roll_dice_ones (n k : ℕ) (h : 1 ≤ n) :
    roll_dice n (fun _ => 1) k = (1, k + n) := by
  rw [roll_dice, rollDiceGo_eq]
  rw [if_pos (Or.inr ⟨0, by omega, rfl⟩)]

/-- The sampling loop over all-ones dice adds one per sample. -/
theorem averageGo_ones (n : ℕ) (hn : 1 ≤ n) :
    ∀ (m k total : ℕ),
      averageGo n (fun _ => 1) m k total = (total + m, k + m * n) := by
  intro m
  induction m with
  | zero => intro k total; simp [averageGo]
  | succ m ih =>
      intro k total
      simp only [averageGo, roll_dice_ones n k hn]
      rw [ih (k + n) (total + 1)]
      simp only [Prod.mk.injEq]
      constructor <;> ring

/-- Averaging all-ones dice gives exactly 1 for every roll count. -/
theorem make_averaged_ones (n k : ℕ) (hn : 1 ≤ n) :
    make_averaged_roll_dice 1000 n (fun _ => 1) k = (1, k + 1000 * n) := by
  rw [make_averaged_roll_dice, averageGo_ones n hn 1000 k 0]
  dsimp only
  norm_num

/-- All ten averages over all-ones dice equal 1. -/
theorem msnrAvgs_ones :
    ∀ (rem count k : ℕ), 1 ≤ count →
      msnrAvgs (fun _ => 1) rem count k = List.replicate rem 1 := by
  intro rem
  induction rem with
  | zero => intro count k _; rfl
  | succ rem ih =>
      intro count k hc
      simp only [msnrAvgs, make_averaged_ones count k hc]
      rw [ih (count + 1) _ (by omega)]
      rfl

/-- Counterexample to C5 as stated: with dice that always roll 1, all ten
counts share the same (maximal) average 1, so the first (lowest) count
achieving the maximum is 1 — yet `max_scoring_num_rolls` returns 10, the
highest tied count. -/
theorem max_scoring_num_rolls_ties_go_last :
    msnrAvgs (fun _ => 1) 10 1 0 = List.replicate 10 1 ∧
    max_scoring_num_rolls (fun _ => 1) 0 = 10 := by
  refine ⟨msnrAvgs_ones 10 1 0 (by omega), ?_⟩
  rw [max_scoring_num_rolls, msnrGo_eq_bestOf (fun _ => 1) 10 1 0 0 1,
    msnrAvgs_ones 10 1 0 (by omega)]
  decide

/-- Witness instantiating `max_scoring_num_rolls_spec` on all-ones dice. -/
theorem max_scoring_num_rolls_spec_witness :
    1 ≤ max_scoring_num_rolls (fun _ => 1) 0 ∧
      max_scoring_num_rolls (fun _ => 1) 0 ≤ 10 :=
  ⟨(max_scoring_num_rolls_spec (fun _ => 1) 0).1,
   (max_scoring_num_rolls_spec (fun _ => 1) 0).2.1⟩
